import Mathlib

/-!
Formal verification of the SPSC lock-free byte ring buffer implemented in
`bq.h`.  The C code is shallowly embedded: `size_t` values are natural
numbers reduced modulo `2 ^ 64` (the msb cascade in `bq_make` is written for
a 64-bit `size_t`), the storage pointer is an `Option (List Nat)` (`none`
models a NULL pointer), and the four operations `bq_popbuf`, `bq_pop`,
`bq_pushbuf`, `bq_push` are translated line by line.  The buf operations
return the (unchanged) queue together with the offset of the returned
pointer into the storage and the value stored in `*len`.
-/

namespace BQ

/-- Bit width of `size_t` assumed by the source (the msb cascade in
`bq_make` handles 64-bit values). -/
def wsize : Nat := 64

/-- Modulus of `size_t` arithmetic, `2 ^ 64`. -/
def M : Nat := 2 ^ wsize

/-- C unsigned subtraction `a - b` on `size_t`, i.e. subtraction modulo
`2 ^ 64` (the implicit wraparound the source relies on). -/
def sub64 (a b : Nat) : Nat := (a + (M - b % M)) % M

/-- The `bq` struct from `bq.h`.  `data` is `none` when the stored pointer
is NULL, otherwise the byte contents of the storage region. -/
structure bq where
  head : Nat
  tail : Nat
  mask : Nat
  cap_lg2 : Nat
  data : Option (List Nat)
deriving Repr, DecidableEq

/-- One step of the msb cascade in `bq_make`:
`if (len >> s) { len >>= s; msb += s; }` acting on the pair `(len, msb)`. -/
def msbStep (s : Nat) (p : Nat × Nat) : Nat × Nat :=
  if p.1 >>> s ≠ 0 then (p.1 >>> s, p.2 + s) else p

/-- The msb cascade of `bq_make`: the position of the most significant set
bit of `len` (the last step of the cascade only bumps `msb`). -/
def bq_msb (len : Nat) : Nat :=
  let p := msbStep 2 (msbStep 4 (msbStep 8 (msbStep 16 (msbStep 32 (len, 0)))))
  if p.1 >>> 1 ≠ 0 then p.2 + 1 else p.2

/-- `bq_make`: returns the all-zero struct for a NULL buffer or zero
length, otherwise a queue over `buf` whose capacity is the power of two
given by the msb of `len`. -/
def bq_make (buf : Option (List Nat)) (len : Nat) : bq :=
  if buf = none ∨ len = 0 then ⟨0, 0, 0, 0, none⟩
  else
    let msb := bq_msb len
    ⟨0, 0, (1 <<< msb) - 1, msb, buf⟩

/-- `bq_popbuf`: returns the queue after the call, the offset
`head & mask` of the returned pointer into `data`, and the value stored in
`*len`, computed exactly as in the source:
`cond = ((tail >> cap_lg2) - (head >> cap_lg2)) & 1` and
`*len = tail - head - (tail & mask) * cond` in `size_t` arithmetic. -/
def bq_popbuf (q : bq) : bq × Nat × Nat :=
  let tail := q.tail
  let cond := (sub64 (tail >>> q.cap_lg2) (q.head >>> q.cap_lg2)) &&& 1
  let len := sub64 (sub64 tail q.head) ((tail &&& q.mask) * cond)
  (q, q.head &&& q.mask, len)

/-- `bq_pop`: advances `head` by `count` (modulo `2 ^ 64`). -/
def bq_pop (q : bq) (count : Nat) : bq :=
  { q with head := (q.head + count) % M }

/-- `bq_pushbuf`: returns the queue after the call, the offset
`tail & mask` of the returned pointer into `data`, and the value stored in
`*len`, computed exactly as in the source:
`cond = ((tail >> cap_lg2) - (head >> cap_lg2)) & 1` and
`*len = mask + 1 - (tail - head) - (head & mask) * (1 - cond)` in `size_t`
arithmetic. -/
def bq_pushbuf (q : bq) : bq × Nat × Nat :=
  let head := q.head
  let cond := (sub64 (q.tail >>> q.cap_lg2) (head >>> q.cap_lg2)) &&& 1
  let len := sub64 (sub64 (q.mask + 1) (sub64 q.tail head)) ((head &&& q.mask) * (1 - cond))
  (q, q.tail &&& q.mask, len)

/-- `bq_push`: advances `tail` by `count` (modulo `2 ^ 64`). -/
def bq_push (q : bq) (count : Nat) : bq :=
  { q with tail := (q.tail + count) % M }

/-- Write the bytes `bs` into the storage `d` starting at index `p`: the
producer's memcpy into the slice returned by `bq_pushbuf`. -/
def writeBytes : List Nat → Nat → List Nat → List Nat
  | d, _, [] => d
  | d, p, b :: bs => writeBytes (d.set p b) (p + 1) bs

/-- Read `c` bytes of the storage `d` starting at index `p`: the consumer's
memcpy out of the slice returned by `bq_popbuf`. -/
def readBytes (d : List Nat) (p c : Nat) : List Nat :=
  (List.range c).map fun i => d.getD (p + i) 0

/-- Producer step: call `bq_pushbuf`, copy `bs` through the returned
pointer, then commit with `bq_push bs.length`. -/
def bq_produce (q : bq) (bs : List Nat) : bq :=
  bq_push { q with data := q.data.map fun d => writeBytes d (bq_pushbuf q).2.1 bs } bs.length

/-- Consumer step: call `bq_popbuf`, copy `c` bytes through the returned
pointer, then commit with `bq_pop c`; returns the bytes observed. -/
def bq_consume (q : bq) (c : Nat) : List Nat × bq :=
  (readBytes (q.data.getD []) (bq_popbuf q).2.1 c, bq_pop q c)

/-- One operation of the sequential producer/consumer protocol. -/
inductive BqOp where
  | produce (bs : List Nat)
  | consume (c : Nat)

/-- A trace state: the queue, all bytes committed by the producer so far,
and all bytes observed and committed by the consumer so far. -/
abbrev TState := bq × List Nat × List Nat

/-- Run one protocol operation on a trace state. -/
def runOp (s : TState) : BqOp → TState
  | .produce bs => (bq_produce s.1 bs, s.2.1 ++ bs, s.2.2)
  | .consume c => ((bq_consume s.1 c).2, s.2.1, s.2.2 ++ (bq_consume s.1 c).1)

/-- Run a sequence of protocol operations on a trace state. -/
def runOps (s : TState) : List BqOp → TState
  | [] => s
  | op :: ops => runOps (runOp s op) ops

/-- The committed count of an operation is at most the length returned by
the matching `bq_pushbuf` / `bq_popbuf` call (the contract of `bq_push` and
`bq_pop`). -/
def okOp (q : bq) : BqOp → Bool
  | .produce bs => bs.length ≤ (bq_pushbuf q).2.2
  | .consume c => c ≤ (bq_popbuf q).2.2

/-- Every operation of the trace respects the commit contract. -/
def okOps (s : TState) : List BqOp → Bool
  | [] => true
  | op :: ops => okOp s.1 op && okOps (runOp s op) ops

/-- Well-formedness of a `bq` state: the capacity is `2 ^ cap_lg2` with
`cap_lg2 ≤ 63`, `mask` is capacity minus one, the cursors are `size_t`
values, and the fill level `tail - head` (wrap-aware) is at most the
capacity (invariant I1 of the specification). -/
def Inv (q : bq) : Prop :=
  q.cap_lg2 ≤ 63 ∧ q.mask = 2 ^ q.cap_lg2 - 1 ∧ q.head < M ∧ q.tail < M ∧
    sub64 q.tail q.head ≤ 2 ^ q.cap_lg2

instance (q : bq) : Decidable (Inv q) := by
  unfold Inv
  infer_instance

lemma Mpow : M = 2 ^ 64 := rfl

lemma Mval : M = 18446744073709551616 := by norm_num [M, wsize]

lemma sub64_add_self (a d : Nat) (ha : a < M) (hd : d < M) : sub64 ((a + d) % M) a = d := by
  unfold sub64; rw [Mval] at *; omega

lemma add_sub64_self (a b : Nat) (ha : a < M) (hb : b < M) : (a + sub64 b a) % M = b := by
  unfold sub64; rw [Mval] at *; omega

lemma sub64_of_le (a b : Nat) (h : b ≤ a) (ha : a < M) : sub64 a b = a - b := by
  unfold sub64; rw [Mval] at *; omega

lemma sub64_zero (a : Nat) (ha : a < M) : sub64 a 0 = a := by
  unfold sub64; rw [Mval] at *; omega

lemma sub64_lt (a b : Nat) : sub64 a b < M := by
  unfold sub64; rw [Mval]; omega

lemma sub64_eq_zero_iff (a b : Nat) (ha : a < M) (hb : b < M) : sub64 a b = 0 ↔ a = b := by
  unfold sub64; rw [Mval] at *; omega

lemma sub64_push (a b c : Nat) (ha : a < M) (hb : b < M) (h : sub64 b a + c < M) :
    sub64 ((b + c) % M) a = sub64 b a + c := by
  unfold sub64 at *; rw [Mval] at *; omega

lemma sub64_pop (a b c : Nat) (ha : a < M) (hb : b < M) (h : c ≤ sub64 b a) :
    sub64 b ((a + c) % M) = sub64 b a - c := by
  unfold sub64 at *; rw [Mval] at *; omega

lemma two_pow_lt_M {lg : Nat} (h : lg ≤ 63) : 2 ^ lg < M := by
  calc 2 ^ lg ≤ 2 ^ 63 := Nat.pow_le_pow_right (by norm_num) h
  _ < M := by rw [Mval]; norm_num

lemma mod_M_mod_pow {lg : Nat} (h : lg ≤ 64) (x : Nat) : x % M % 2 ^ lg = x % 2 ^ lg :=
  Nat.mod_mod_of_dvd x (by rw [Mpow]; exact pow_dvd_pow 2 h)

/-- Core arithmetic of the branchless length computation, over an abstract
word size `c * e` with capacity `c` and an even epoch count `e`: for a
cursor `head` and fill distance `d ≤ c`, the wrapped tail
`(head + d) % (c * e)` has residue `(head % c + d) % c`, the low bit of the
epoch difference equals the carry of `head % c + d` past `c`, and the two
epochs are equal exactly when there is no carry. -/
lemma carry_cases (c e head d : Nat) (hc : 0 < c) (he2 : e % 2 = 0) (he1 : 1 ≤ e)
    (hh : head < c * e) (hd : d ≤ c) :
    (head + d) % (c * e) % c = (head % c + d) % c
    ∧ ((head + d) % (c * e) / c + (c * e - head / c)) % (c * e) % 2
        = (if head % c + d < c then 0 else 1)
    ∧ ((head + d) % (c * e) / c = head / c ↔ head % c + d < c) := by
  have hqr := Nat.div_add_mod head c
  have hr : head % c < c := Nat.mod_lt head hc
  have hcM : c ≤ c * e := Nat.le_mul_of_pos_right c he1
  have heM : e ≤ c * e := Nat.le_mul_of_pos_left e hc
  have he2' : 2 ≤ e := by omega
  by_cases hcase : head + d < c * e
  · -- the sum does not wrap around the word size
    rw [Nat.mod_eq_of_lt hcase]
    have hdiv : (head + d) / c = head / c + (head % c + d) / c := by
      conv_lhs => rw [← hqr, add_assoc]
      rw [Nat.mul_add_div hc]
    have hmod : (head + d) % c = (head % c + d) % c := by
      conv_lhs => rw [← hqr, add_assoc]
      rw [Nat.mul_add_mod]
    have hb : (head % c + d) / c = if head % c + d < c then 0 else 1 := by
      split
      case isTrue h => exact Nat.div_eq_of_lt h
      case isFalse h =>
        have h2 : head % c + d - c < c := by omega
        have h3 : head % c + d = (head % c + d - c) + c := by omega
        rw [h3, Nat.add_div_right _ hc, Nat.div_eq_of_lt h2]
    refine ⟨hmod, ?_, ?_⟩
    · rw [hdiv]
      have hsum : head / c + (head % c + d) / c + (c * e - head / c)
          = c * e + (head % c + d) / c := by
        have : head / c ≤ head := Nat.div_le_self _ _
        omega
      rw [hsum, Nat.add_mod_left]
      have hble : (head % c + d) / c ≤ 1 := by rw [hb]; split <;> omega
      have hce2 : 2 ≤ c * e := le_trans he2' heM
      have hlt : (head % c + d) / c < c * e := by omega
      rw [Nat.mod_eq_of_lt hlt, hb]
      split <;> rfl
    · rw [hdiv, hb]
      split
      next h => simp [h]
      next h =>
        constructor
        · intro hEq
          omega
        · intro hlt
          exact absurd hlt h
  · -- the sum wraps around the word size
    push_neg at hcase
    have hT : (head + d) % (c * e) = head + d - c * e := by
      rw [Nat.mod_eq_sub_mod hcase]
      exact Nat.mod_eq_of_lt (by omega)
    have hq_lt : head / c < e := by
      have hh' : head < e * c := by rw [mul_comm e c]; exact hh
      exact (Nat.div_lt_iff_lt_mul hc).2 hh'
    have hq_ge : e < head / c + 2 := by
      have h2 : head + d < c * (head / c) + 2 * c := by omega
      have h3 : c * (head / c) + 2 * c = c * (head / c + 2) := by ring
      have h4 : c * e < c * (head / c + 2) := by omega
      exact Nat.lt_of_mul_lt_mul_left h4
    have hqe : head / c = e - 1 := by omega
    have key : c * (e - 1) + c = c * e := by rw [← Nat.mul_succ]; congr 1; omega
    have hqr' : c * (e - 1) + head % c = head := by rw [← hqe]; exact hqr
    have hsc : c ≤ head % c + d := by omega
    have hTval : head + d - c * e = head % c + d - c := by omega
    have hT0 : (head + d) % (c * e) / c = 0 := by
      rw [hT, hTval]
      exact Nat.div_eq_of_lt (by omega)
    have hmod2 : (head + d) % (c * e) % c = (head % c + d) % c := by
      rw [hT, hTval, Nat.mod_eq_of_lt (by omega : head % c + d - c < c),
        Nat.mod_eq_sub_mod hsc, Nat.mod_eq_of_lt (by omega : head % c + d - c < c)]
    refine ⟨hmod2, ?_, ?_⟩
    · rw [hT0, hqe, if_neg (by omega), Nat.zero_add,
        Nat.mod_eq_of_lt (by omega : c * e - (e - 1) < c * e)]
      have hce2 : c * e % 2 = 0 := by rw [Nat.mul_mod, he2]; simp
      omega
    · rw [hT0, hqe]
      constructor
      · intro h0
        omega
      · intro hlt
        omega

/-- The branchless epoch computation of `bq_popbuf` / `bq_pushbuf`, stated
over the embedded `size_t` arithmetic: with capacity `2 ^ lg`, `lg ≤ 63`,
`head < 2 ^ 64` and fill distance `d ≤ 2 ^ lg`, the residue of the wrapped
tail, the `cond` bit of the source, and the equal-epoch test are as
described in the source comments. -/
lemma cursor_cases (lg head d : Nat) (hlg : lg ≤ 63) (hh : head < M) (hd : d ≤ 2 ^ lg) :
    (head + d) % M % 2 ^ lg = (head % 2 ^ lg + d) % 2 ^ lg
    ∧ (sub64 (((head + d) % M) >>> lg) (head >>> lg)) &&& 1
        = (if head % 2 ^ lg + d < 2 ^ lg then 0 else 1)
    ∧ (((head + d) % M) >>> lg = head >>> lg ↔ head % 2 ^ lg + d < 2 ^ lg) := by
  have hc : 0 < 2 ^ lg := pow_pos (by norm_num) lg
  have he2 : 2 ^ (64 - lg) % 2 = 0 := by
    obtain ⟨k, hk⟩ : ∃ k, 64 - lg = k + 1 := ⟨63 - lg, by omega⟩
    rw [hk, pow_succ]
    omega
  have he1 : 1 ≤ 2 ^ (64 - lg) := Nat.one_le_two_pow
  have hMce : M = 2 ^ lg * 2 ^ (64 - lg) := by
    rw [Mpow, ← pow_add]
    congr 1
    omega
  obtain ⟨h1, h2, h3⟩ := carry_cases (2 ^ lg) (2 ^ (64 - lg)) head d hc he2 he1 (hMce ▸ hh) hd
  rw [← hMce] at h1 h2 h3
  refine ⟨h1, ?_, ?_⟩
  · rw [Nat.shiftRight_eq_div_pow, Nat.shiftRight_eq_div_pow, Nat.and_one_is_mod]
    have hbM : head / 2 ^ lg < M := lt_of_le_of_lt (Nat.div_le_self _ _) hh
    unfold sub64
    rw [Nat.mod_eq_of_lt hbM]
    exact h2
  · rw [Nat.shiftRight_eq_div_pow, Nat.shiftRight_eq_div_pow]
    exact h3

/-- Value of `bq_popbuf` on a well-formed queue: the pointer offset is
`head % capacity`, the reported length is the minimum of the fill level and
the contiguous distance from the read index to the physical end of storage,
the `tail` residue is the read residue plus the fill level, and the two
cursors are in the same epoch exactly when that sum does not carry. -/
lemma popbuf_master (q : bq) (h : Inv q) :
    (bq_popbuf q).2.1 = q.head % 2 ^ q.cap_lg2
    ∧ (bq_popbuf q).2.2
        = min (sub64 q.tail q.head) (2 ^ q.cap_lg2 - q.head % 2 ^ q.cap_lg2)
    ∧ (q.tail >>> q.cap_lg2 = q.head >>> q.cap_lg2
        ↔ q.head % 2 ^ q.cap_lg2 + sub64 q.tail q.head < 2 ^ q.cap_lg2)
    ∧ q.tail % 2 ^ q.cap_lg2
        = (q.head % 2 ^ q.cap_lg2 + sub64 q.tail q.head) % 2 ^ q.cap_lg2 := by
  obtain ⟨head, tail, mask, lg, dat⟩ := q
  obtain ⟨hlg, hmask, hh, ht, hfill⟩ := h
  dsimp only at hlg hmask hh ht hfill ⊢
  have hc : 0 < 2 ^ lg := pow_pos (by norm_num) lg
  have hcM : 2 ^ lg < M := two_pow_lt_M hlg
  have hdM : sub64 tail head < M := sub64_lt _ _
  have hr : head % 2 ^ lg < 2 ^ lg := Nat.mod_lt _ hc
  have htail : tail = (head + sub64 tail head) % M := (add_sub64_self head tail hh ht).symm
  obtain ⟨c1, c2, c3⟩ := cursor_cases lg head (sub64 tail head) hlg hh hfill
  rw [← htail] at c1 c2 c3
  have htmod : tail % 2 ^ lg = (head % 2 ^ lg + sub64 tail head) % 2 ^ lg := c1
  refine ⟨?_, ?_, c3, c1⟩
  · simp only [bq_popbuf]
    rw [hmask]
    exact Nat.and_pow_two_sub_one_eq_mod head lg
  · simp only [bq_popbuf]
    rw [hmask, Nat.and_pow_two_sub_one_eq_mod tail lg, c2]
    by_cases hrd : head % 2 ^ lg + sub64 tail head < 2 ^ lg
    · rw [if_pos hrd, Nat.mul_zero, sub64_zero _ hdM]
      exact (Nat.min_eq_left (by omega)).symm
    · rw [if_neg hrd, Nat.mul_one]
      have ht2 : tail % 2 ^ lg = head % 2 ^ lg + sub64 tail head - 2 ^ lg := by
        rw [htmod, Nat.mod_eq_sub_mod (by omega), Nat.mod_eq_of_lt (by omega)]
      have hs : sub64 (sub64 tail head) (head % 2 ^ lg + sub64 tail head - 2 ^ lg)
          = sub64 tail head - (head % 2 ^ lg + sub64 tail head - 2 ^ lg) :=
        sub64_of_le _ _ (by omega) hdM
      rw [ht2, hs,
        Nat.min_eq_right (by omega : 2 ^ lg - head % 2 ^ lg ≤ sub64 tail head)]
      omega

/-- Value of `bq_pushbuf` on a well-formed queue: the pointer offset is
`tail % capacity` and the reported length is the minimum of the remaining
free space and the contiguous distance from the write index to the physical
end of storage. -/
lemma pushbuf_master (q : bq) (h : Inv q) :
    (bq_pushbuf q).2.1 = q.tail % 2 ^ q.cap_lg2
    ∧ (bq_pushbuf q).2.2
        = min (2 ^ q.cap_lg2 - sub64 q.tail q.head)
            (2 ^ q.cap_lg2 - q.tail % 2 ^ q.cap_lg2) := by
  obtain ⟨head, tail, mask, lg, dat⟩ := q
  obtain ⟨hlg, hmask, hh, ht, hfill⟩ := h
  dsimp only at hlg hmask hh ht hfill ⊢
  have hc : 0 < 2 ^ lg := pow_pos (by norm_num) lg
  have hcM : 2 ^ lg < M := two_pow_lt_M hlg
  have hdM : sub64 tail head < M := sub64_lt _ _
  have hr : head % 2 ^ lg < 2 ^ lg := Nat.mod_lt _ hc
  have htail : tail = (head + sub64 tail head) % M := (add_sub64_self head tail hh ht).symm
  obtain ⟨c1, c2, c3⟩ := cursor_cases lg head (sub64 tail head) hlg hh hfill
  rw [← htail] at c1 c2 c3
  have hmask1 : mask + 1 = 2 ^ lg := by omega
  refine ⟨?_, ?_⟩
  · simp only [bq_pushbuf]
    rw [hmask]
    exact Nat.and_pow_two_sub_one_eq_mod tail lg
  · simp only [bq_pushbuf]
    rw [hmask1, hmask, Nat.and_pow_two_sub_one_eq_mod head lg, c2]
    have hsub1 : sub64 (2 ^ lg) (sub64 tail head) = 2 ^ lg - sub64 tail head :=
      sub64_of_le _ _ hfill hcM
    rw [hsub1, c1]
    by_cases hrd : head % 2 ^ lg + sub64 tail head < 2 ^ lg
    · rw [if_pos hrd, Nat.sub_zero, Nat.mul_one, Nat.mod_eq_of_lt hrd]
      have hs2 : sub64 (2 ^ lg - sub64 tail head) (head % 2 ^ lg)
          = 2 ^ lg - sub64 tail head - head % 2 ^ lg :=
        sub64_of_le _ _ (by omega) (by omega)
      rw [hs2, Nat.min_eq_right (by omega :
        2 ^ lg - (head % 2 ^ lg + sub64 tail head) ≤ 2 ^ lg - sub64 tail head)]
      omega
    · rw [if_neg hrd]
      have hz : head % 2 ^ lg * (1 - 1) = 0 := by norm_num
      have hs3 : sub64 (2 ^ lg - sub64 tail head) 0 = 2 ^ lg - sub64 tail head :=
        sub64_zero _ (by omega)
      have ht2 : (head % 2 ^ lg + sub64 tail head) % 2 ^ lg
          = head % 2 ^ lg + sub64 tail head - 2 ^ lg := by
        rw [Nat.mod_eq_sub_mod (by omega), Nat.mod_eq_of_lt (by omega)]
      rw [hz, hs3, ht2, Nat.min_eq_left (by omega :
        2 ^ lg - sub64 tail head
          ≤ 2 ^ lg - (head % 2 ^ lg + sub64 tail head - 2 ^ lg))]

/-- `bq_push` with a count within the length reported by `bq_pushbuf`
preserves well-formedness and raises the fill level by the count. -/
lemma Inv_bq_push (q : bq) (h : Inv q) (cnt : Nat) (hcnt : cnt ≤ (bq_pushbuf q).2.2) :
    Inv (bq_push q cnt)
    ∧ sub64 (bq_push q cnt).tail (bq_push q cnt).head = sub64 q.tail q.head + cnt := by
  obtain ⟨hptr, hlen⟩ := pushbuf_master q h
  obtain ⟨hlg, hmask, hh, ht, hfill⟩ := h
  have hcM : 2 ^ q.cap_lg2 < M := two_pow_lt_M hlg
  have hcnt' : cnt ≤ 2 ^ q.cap_lg2 - sub64 q.tail q.head := by
    rw [hlen] at hcnt
    omega
  have hfill' : sub64 ((q.tail + cnt) % M) q.head = sub64 q.tail q.head + cnt :=
    sub64_push q.head q.tail cnt hh ht (by omega)
  refine ⟨⟨hlg, hmask, hh, Nat.mod_lt _ (by rw [Mval]; omega), ?_⟩, hfill'⟩
  · simp only [bq_push]
    rw [hfill']
    omega

/-- `bq_pop` with a count within the length reported by `bq_popbuf`
preserves well-formedness and lowers the fill level by the count. -/
lemma Inv_bq_pop (q : bq) (h : Inv q) (cnt : Nat) (hcnt : cnt ≤ (bq_popbuf q).2.2) :
    Inv (bq_pop q cnt)
    ∧ sub64 (bq_pop q cnt).tail (bq_pop q cnt).head = sub64 q.tail q.head - cnt := by
  obtain ⟨hptr, hlen, hrest⟩ := popbuf_master q h
  obtain ⟨hlg, hmask, hh, ht, hfill⟩ := h
  have hcnt' : cnt ≤ sub64 q.tail q.head := by
    rw [hlen] at hcnt
    omega
  have hfill' : sub64 q.tail ((q.head + cnt) % M) = sub64 q.tail q.head - cnt :=
    sub64_pop q.head q.tail cnt hh ht hcnt'
  refine ⟨⟨hlg, hmask, Nat.mod_lt _ (by rw [Mval]; omega), ht, ?_⟩, hfill'⟩
  · simp only [bq_pop]
    rw [hfill']
    omega

lemma getD_set_self (l : List Nat) (i a : Nat) (h : i < l.length) :
    (l.set i a).getD i 0 = a := by
  simp [List.getD_eq_getElem?_getD, List.getElem?_set_self, h]

lemma getD_set_ne (l : List Nat) (i j a : Nat) (h : i ≠ j) :
    (l.set i a).getD j 0 = l.getD j 0 := by
  simp [List.getD_eq_getElem?_getD, List.getElem?_set_ne h]

lemma getD_append_left (l1 l2 : List Nat) (n : Nat) (h : n < l1.length) :
    (l1 ++ l2).getD n 0 = l1.getD n 0 := by
  rw [List.getD_eq_getElem?_getD, List.getD_eq_getElem?_getD, List.getElem?_append,
    if_pos h]

lemma getD_append_right (l1 l2 : List Nat) (n : Nat) (h : l1.length ≤ n) :
    (l1 ++ l2).getD n 0 = l2.getD (n - l1.length) 0 := by
  rw [List.getD_eq_getElem?_getD, List.getD_eq_getElem?_getD,
    List.getElem?_append_right h]

lemma writeBytes_length (bs : List Nat) (dl : List Nat) (p : Nat) :
    (writeBytes dl p bs).length = dl.length := by
  induction bs generalizing dl p with
  | nil => rfl
  | cons b bs ih => rw [writeBytes, ih, List.length_set]

/-- The effect of the producer's copy on the storage: positions in
`[p, p + bs.length)` (and in range) receive the corresponding byte of `bs`,
every other position is untouched. -/
lemma writeBytes_getD (bs : List Nat) (dl : List Nat) (p j : Nat) :
    (writeBytes dl p bs).getD j 0 =
      if p ≤ j ∧ j < p + bs.length ∧ j < dl.length then bs.getD (j - p) 0
      else dl.getD j 0 := by
  induction bs generalizing dl p with
  | nil =>
    rw [writeBytes, if_neg]
    simp only [List.length_nil]
    omega
  | cons b bs ih =>
    rw [writeBytes, ih, List.length_set]
    simp only [List.length_cons]
    by_cases hj : j = p
    · subst hj
      rw [if_neg (by omega)]
      by_cases hl : j < dl.length
      · rw [if_pos ⟨Nat.le_refl j, by omega, hl⟩, Nat.sub_self, List.getD_cons_zero]
        exact getD_set_self dl j b hl
      · rw [if_neg (by omega), List.set_eq_of_length_le (by omega)]
    · by_cases hA : p + 1 ≤ j ∧ j < p + 1 + bs.length ∧ j < dl.length
      · rw [if_pos hA, if_pos (by omega)]
        have hjp : j - p = (j - (p + 1)) + 1 := by omega
        rw [hjp, List.getD_cons_succ]
      · rw [if_neg hA, if_neg (by omega), getD_set_ne dl p j b (by omega)]

lemma length_readBytes (d : List Nat) (p c : Nat) : (readBytes d p c).length = c := by
  simp [readBytes]

lemma getD_readBytes (d : List Nat) (p c i : Nat) (h : i < c) :
    (readBytes d p c).getD i 0 = d.getD (p + i) 0 := by
  have hlen : i < (readBytes d p c).length := by rw [length_readBytes]; exact h
  rw [List.getD_eq_getElem _ _ hlen]
  simp [readBytes]

lemma getD_take_drop (l : List Nat) (n cnt i : Nat) (hi : i < cnt) (h : n + cnt ≤ l.length) :
    ((l.drop n).take cnt).getD i 0 = l.getD (n + i) 0 := by
  have h1 : i < ((l.drop n).take cnt).length := by
    rw [List.length_take, List.length_drop]
    omega
  have h2 : n + i < l.length := by omega
  rw [List.getD_eq_getElem _ _ h1, List.getD_eq_getElem _ _ h2]
  simp [List.getElem_take, List.getElem_drop]

/-- Invariant tying a queue to the trace ghost state: the queue is
well-formed, its storage is a real buffer at least as long as the capacity,
the bytes committed by the producer extend the bytes observed by the
consumer by exactly the fill level, the observed bytes are an initial
segment of the committed ones, and the `i`-th unread byte sits at physical
index `(head + i) % capacity` of the storage. -/
def TraceInv (s : TState) : Prop :=
  Inv s.1 ∧ s.1.data ≠ none ∧ 2 ^ s.1.cap_lg2 ≤ (s.1.data.getD []).length ∧
    s.2.1.length = s.2.2.length + sub64 s.1.tail s.1.head ∧
    s.2.2 = s.2.1.take s.2.2.length ∧
    ∀ i, i < sub64 s.1.tail s.1.head →
      (s.1.data.getD []).getD ((s.1.head + i) % 2 ^ s.1.cap_lg2) 0
        = s.2.1.getD (s.2.2.length + i) 0

/-- A producer step (pushbuf, copy, push) whose committed count respects
the reported length preserves the trace invariant. -/
lemma TraceInv_produce (q : bq) (pushed popped : List Nat) (bs : List Nat)
    (h : TraceInv (q, pushed, popped)) (hok : bs.length ≤ (bq_pushbuf q).2.2) :
    TraceInv (bq_produce q bs, pushed ++ bs, popped) := by
  obtain ⟨hq, hdata, hdlen, hlen, hpre, hbytes⟩ := h
  obtain ⟨hptr, hplen⟩ := pushbuf_master q hq
  obtain ⟨hp1, hp2, hp3, hres⟩ := popbuf_master q hq
  have hq' := hq
  obtain ⟨hlg, hmask, hh, ht, hfill⟩ := hq'
  obtain ⟨head, tail, mask, lg, dat⟩ := q
  dsimp only at hptr hplen hres hlg hmask hh ht hfill hdata hdlen hlen hbytes hok ⊢
  obtain ⟨dl, hdl⟩ := Option.ne_none_iff_exists'.mp hdata
  subst hdl
  simp only [Option.getD_some] at hdlen hbytes
  have hc : 0 < 2 ^ lg := pow_pos (by norm_num) lg
  have hcM : 2 ^ lg < M := two_pow_lt_M hlg
  have hr : head % 2 ^ lg < 2 ^ lg := Nat.mod_lt _ hc
  have htm : tail % 2 ^ lg < 2 ^ lg := Nat.mod_lt _ hc
  have hbs1 : bs.length ≤ 2 ^ lg - sub64 tail head := by
    rw [hplen] at hok
    omega
  have hbs2 : bs.length ≤ 2 ^ lg - tail % 2 ^ lg := by
    rw [hplen] at hok
    omega
  have hfill' : sub64 ((tail + bs.length) % M) head = sub64 tail head + bs.length :=
    sub64_push head tail bs.length hh ht (by omega)
  have hK : ∀ j, j < bs.length →
      (head + (sub64 tail head + j)) % 2 ^ lg = tail % 2 ^ lg + j := by
    intro j hj
    have h1 : (head + (sub64 tail head + j)) % 2 ^ lg
        = (head % 2 ^ lg + (sub64 tail head + j)) % 2 ^ lg := by
      rw [Nat.add_mod head (sub64 tail head + j),
        Nat.mod_eq_of_lt (by omega : sub64 tail head + j < 2 ^ lg)]
    have h2 : (head % 2 ^ lg + (sub64 tail head + j)) % 2 ^ lg
        = ((head % 2 ^ lg + sub64 tail head) % 2 ^ lg + j) % 2 ^ lg := by
      rw [← Nat.add_assoc, Nat.mod_add_mod]
    rw [h1, h2, ← hres, Nat.mod_eq_of_lt (by omega : tail % 2 ^ lg + j < 2 ^ lg)]
  simp only [TraceInv, bq_produce, hptr, bq_push, Option.map_some']
  refine ⟨⟨hlg, hmask, hh, ?_, ?_⟩, ?_, ?_, ?_, ?_, ?_⟩
  · show (tail + bs.length) % M < M
    exact Nat.mod_lt _ (by rw [Mval]; omega)
  · show sub64 ((tail + bs.length) % M) head ≤ 2 ^ lg
    rw [hfill']
    omega
  · show some (writeBytes dl (tail % 2 ^ lg) bs) ≠ none
    simp
  · show 2 ^ lg ≤ ((some (writeBytes dl (tail % 2 ^ lg) bs)).getD []).length
    simp only [Option.getD_some]
    rw [writeBytes_length]
    exact hdlen
  · show (pushed ++ bs).length = popped.length + sub64 ((tail + bs.length) % M) head
    rw [hfill', List.length_append]
    omega
  · show popped = (pushed ++ bs).take popped.length
    rw [List.take_append_of_le_length (by omega : popped.length ≤ pushed.length)]
    exact hpre
  · show ∀ i, i < sub64 ((tail + bs.length) % M) head →
      ((some (writeBytes dl (tail % 2 ^ lg) bs)).getD []).getD ((head + i) % 2 ^ lg) 0
        = (pushed ++ bs).getD (popped.length + i) 0
    simp only [Option.getD_some]
    intro i hi
    rw [hfill'] at hi
    by_cases hi2 : i < sub64 tail head
    · have hnot : ¬ (tail % 2 ^ lg ≤ (head + i) % 2 ^ lg
          ∧ (head + i) % 2 ^ lg < tail % 2 ^ lg + bs.length
          ∧ (head + i) % 2 ^ lg < dl.length) := by
        rintro ⟨hg1, hg2, hg3⟩
        have hj : (head + i) % 2 ^ lg = tail % 2 ^ lg + ((head + i) % 2 ^ lg - tail % 2 ^ lg) := by
          omega
        have hjlt : (head + i) % 2 ^ lg - tail % 2 ^ lg < bs.length := by omega
        have hKj := hK ((head + i) % 2 ^ lg - tail % 2 ^ lg) hjlt
        have hcancel : i % 2 ^ lg
            = (sub64 tail head + ((head + i) % 2 ^ lg - tail % 2 ^ lg)) % 2 ^ lg := by
          have hmm : (head + i) % 2 ^ lg
              = (head + (sub64 tail head + ((head + i) % 2 ^ lg - tail % 2 ^ lg))) % 2 ^ lg := by
            rw [hKj]
            omega
          have := Nat.ModEq.add_left_cancel' head
            (hmm : (head + i) % 2 ^ lg
              = (head + (sub64 tail head + ((head + i) % 2 ^ lg - tail % 2 ^ lg))) % 2 ^ lg)
          exact this
        rw [Nat.mod_eq_of_lt (by omega : i < 2 ^ lg),
          Nat.mod_eq_of_lt (by omega)] at hcancel
        omega
      rw [writeBytes_getD, if_neg hnot]
      have hleft : popped.length + i < pushed.length := by omega
      rw [getD_append_left pushed bs (popped.length + i) hleft]
      exact hbytes i hi2
    · have hj : i = sub64 tail head + (i - sub64 tail head) := by omega
      have hjlt : i - sub64 tail head < bs.length := by omega
      have hKj := hK (i - sub64 tail head) hjlt
      rw [hj, hKj, writeBytes_getD,
        if_pos ⟨Nat.le_add_right _ _, by omega, by omega⟩]
      rw [getD_append_right pushed bs _ (by omega)]
      have e1 : tail % 2 ^ lg + (i - sub64 tail head) - tail % 2 ^ lg
          = i - sub64 tail head := by omega
      have e2 : popped.length + (sub64 tail head + (i - sub64 tail head)) - pushed.length
          = i - sub64 tail head := by omega
      rw [e1, e2]

/-- A consumer step (popbuf, copy, pop) whose committed count respects the
reported length preserves the trace invariant. -/
lemma TraceInv_consume (q : bq) (pushed popped : List Nat) (cnt : Nat)
    (h : TraceInv (q, pushed, popped)) (hok : cnt ≤ (bq_popbuf q).2.2) :
    TraceInv ((bq_consume q cnt).2, pushed, popped ++ (bq_consume q cnt).1) := by
  obtain ⟨hq, hdata, hdlen, hlen, hpre, hbytes⟩ := h
  obtain ⟨hptr, hplen, hp3, hres⟩ := popbuf_master q hq
  have hq' := hq
  obtain ⟨hlg, hmask, hh, ht, hfill⟩ := hq'
  obtain ⟨head, tail, mask, lg, dat⟩ := q
  dsimp only at hptr hplen hres hlg hmask hh ht hfill hdata hdlen hlen hbytes hok ⊢
  obtain ⟨dl, hdl⟩ := Option.ne_none_iff_exists'.mp hdata
  subst hdl
  simp only [Option.getD_some] at hdlen hbytes
  have hc : 0 < 2 ^ lg := pow_pos (by norm_num) lg
  have hcM : 2 ^ lg < M := two_pow_lt_M hlg
  have hr : head % 2 ^ lg < 2 ^ lg := Nat.mod_lt _ hc
  have hcnt1 : cnt ≤ sub64 tail head := by
    rw [hplen] at hok
    omega
  have hcnt2 : cnt ≤ 2 ^ lg - head % 2 ^ lg := by
    rw [hplen] at hok
    omega
  have hfill' : sub64 tail ((head + cnt) % M) = sub64 tail head - cnt :=
    sub64_pop head tail cnt hh ht hcnt1
  have hK : ∀ i, i < cnt → (head + i) % 2 ^ lg = head % 2 ^ lg + i := by
    intro i hi
    rw [Nat.add_mod head i, Nat.mod_eq_of_lt (by omega : i < 2 ^ lg),
      Nat.mod_eq_of_lt (by omega : head % 2 ^ lg + i < 2 ^ lg)]
  have hread : ∀ i, i < cnt →
      (readBytes dl (head % 2 ^ lg) cnt).getD i 0 = pushed.getD (popped.length + i) 0 := by
    intro i hi
    rw [getD_readBytes dl _ cnt i hi, ← hK i hi]
    exact hbytes i (by omega)
  simp only [TraceInv, bq_consume, hptr, bq_pop, Option.getD_some]
  refine ⟨⟨hlg, hmask, ?_, ht, ?_⟩, ?_, ?_, ?_, ?_, ?_⟩
  · show (head + cnt) % M < M
    exact Nat.mod_lt _ (by rw [Mval]; omega)
  · show sub64 tail ((head + cnt) % M) ≤ 2 ^ lg
    rw [hfill']
    omega
  · show (some dl : Option (List Nat)) ≠ none
    simp
  · show 2 ^ lg ≤ ((some dl : Option (List Nat)).getD []).length
    simpa using hdlen
  · show pushed.length
      = (popped ++ readBytes dl (head % 2 ^ lg) cnt).length + sub64 tail ((head + cnt) % M)
    rw [hfill', List.length_append, length_readBytes]
    omega
  · show popped ++ readBytes dl (head % 2 ^ lg) cnt
      = pushed.take ((popped ++ readBytes dl (head % 2 ^ lg) cnt).length)
    rw [List.length_append, length_readBytes, List.take_add, ← hpre]
    congr 1
    apply List.ext_getElem
    · rw [length_readBytes, List.length_take, List.length_drop,
        Nat.min_eq_left (by omega : cnt ≤ pushed.length - popped.length)]
    · intro i h1 h2
      rw [← List.getD_eq_getElem _ 0 h1, ← List.getD_eq_getElem _ 0 h2]
      have hi : i < cnt := by
        rw [length_readBytes] at h1
        exact h1
      rw [hread i hi, getD_take_drop pushed popped.length cnt i hi (by omega)]
  · show ∀ i, i < sub64 tail ((head + cnt) % M) →
      dl.getD (((head + cnt) % M + i) % 2 ^ lg) 0
        = pushed.getD ((popped ++ readBytes dl (head % 2 ^ lg) cnt).length + i) 0
    simp only [List.length_append, length_readBytes]
    intro i hi
    rw [hfill'] at hi
    have hshift : ((head + cnt) % M + i) % 2 ^ lg = (head + (cnt + i)) % 2 ^ lg := by
      conv_lhs => rw [Nat.add_mod]
      rw [mod_M_mod_pow (by omega : lg ≤ 64) (head + cnt), ← Nat.add_mod, Nat.add_assoc]
    rw [hshift, hbytes (cnt + i) (by omega)]
    congr 1
    omega

/-- Running any contract-respecting sequence of operations preserves the
trace invariant. -/
lemma TraceInv_runOps (ops : List BqOp) (s : TState) (h : TraceInv s)
    (hok : okOps s ops = true) : TraceInv (runOps s ops) := by
  induction ops generalizing s with
  | nil => exact h
  | cons op ops ih =>
    rw [okOps, Bool.and_eq_true] at hok
    obtain ⟨h1, h2⟩ := hok
    refine ih (runOp s op) ?_ h2
    obtain ⟨q, pushed, popped⟩ := s
    cases op with
    | produce bs =>
      simp only [okOp, decide_eq_true_eq] at h1
      exact TraceInv_produce q pushed popped bs h h1
    | consume c =>
      simp only [okOp, decide_eq_true_eq] at h1
      exact TraceInv_consume q pushed popped c h h1

/-- The observed bytes of an invariant-satisfying trace state are an
initial segment of the committed bytes. -/
lemma TraceInv_final (s : TState) (h : TraceInv s) : ∃ rest, s.2.1 = s.2.2 ++ rest := by
  obtain ⟨-, -, -, -, hpre, -⟩ := h
  refine ⟨s.2.1.drop s.2.2.length, ?_⟩
  conv_lhs => rw [← List.take_append_drop s.2.2.length s.2.1]
  rw [← hpre]

/-- One step of the msb cascade preserves its invariant: the running value
is the original length shifted by the running msb count, the length is
bounded by the window that remains, and the running value stays nonzero. -/
lemma msbStep_spec (L s : Nat) (p : Nat × Nat)
    (hl : p.1 = L >>> p.2) (hb : L < 2 ^ (p.2 + (s + s))) (hn : p.1 ≠ 0) :
    (msbStep s p).1 = L >>> (msbStep s p).2
    ∧ L < 2 ^ ((msbStep s p).2 + s) ∧ (msbStep s p).1 ≠ 0 := by
  unfold msbStep
  split
  next h =>
    refine ⟨?_, ?_, h⟩
    · show p.1 >>> s = L >>> (p.2 + s)
      rw [hl, Nat.shiftRight_add]
    · show L < 2 ^ (p.2 + s + s)
      rw [show p.2 + s + s = p.2 + (s + s) from by omega]
      exact hb
  next h =>
    push_neg at h
    refine ⟨hl, ?_, hn⟩
    rw [hl, ← Nat.shiftRight_add, Nat.shiftRight_eq_div_pow] at h
    by_contra hcon
    push_neg at hcon
    have h1 : 1 ≤ L / 2 ^ (p.2 + s) := (Nat.one_le_div_iff (pow_pos (by norm_num) _)).2 hcon
    omega

/-- The msb cascade of `bq_make` computes the position of the most
significant set bit: `2 ^ bq_msb L` is the largest power of two that is at
most `L`, for any `size_t` length `L ≥ 1`. -/
lemma bq_msb_spec (L : Nat) (h1 : 1 ≤ L) (h2 : L < 2 ^ 64) :
    2 ^ bq_msb L ≤ L ∧ L < 2 ^ (bq_msb L + 1) := by
  have s32 := msbStep_spec L 32 (L, 0) rfl (by simpa using h2) (by omega)
  have s16 := msbStep_spec L 16 _ s32.1 s32.2.1 s32.2.2
  have s08 := msbStep_spec L 8 _ s16.1 s16.2.1 s16.2.2
  have s04 := msbStep_spec L 4 _ s08.1 s08.2.1 s08.2.2
  have s02 := msbStep_spec L 2 _ s04.1 s04.2.1 s04.2.2
  obtain ⟨e1, e2, e3⟩ := s02
  have hgoal : bq_msb L
      = if (msbStep 2 (msbStep 4 (msbStep 8 (msbStep 16 (msbStep 32 (L, 0)))))).1 >>> 1 ≠ 0
        then (msbStep 2 (msbStep 4 (msbStep 8 (msbStep 16 (msbStep 32 (L, 0)))))).2 + 1
        else (msbStep 2 (msbStep 4 (msbStep 8 (msbStep 16 (msbStep 32 (L, 0)))))).2 := rfl
  rw [hgoal]
  set p := msbStep 2 (msbStep 4 (msbStep 8 (msbStep 16 (msbStep 32 (L, 0))))) with hpdef
  split
  next h =>
    rw [e1, ← Nat.shiftRight_add, Nat.shiftRight_eq_div_pow] at h
    constructor
    · by_contra hcon
      push_neg at hcon
      rw [Nat.div_eq_of_lt hcon] at h
      exact h rfl
    · exact e2
  next h =>
    push_neg at h
    rw [e1, ← Nat.shiftRight_add, Nat.shiftRight_eq_div_pow] at h
    constructor
    · have h4 : L >>> p.2 ≠ 0 := by rw [← e1]; exact e3
      rw [Nat.shiftRight_eq_div_pow] at h4
      by_contra hcon
      push_neg at hcon
      rw [Nat.div_eq_of_lt hcon] at h4
      exact h4 rfl
    · by_contra hcon
      push_neg at hcon
      have := (Nat.one_le_div_iff (pow_pos (by norm_num) _)).2 hcon
      omega

/-- The result of a successful `bq_make`: zero cursors, mask and capacity
from the msb of the length, well-formedness. -/
lemma bq_make_Inv (buf : List Nat) (L : Nat) (h1 : 1 ≤ L) (h2 : L < 2 ^ 64) :
    Inv (bq_make (some buf) L)
    ∧ (bq_make (some buf) L).head = 0 ∧ (bq_make (some buf) L).tail = 0
    ∧ (bq_make (some buf) L).mask + 1 = 2 ^ (bq_make (some buf) L).cap_lg2
    ∧ (bq_make (some buf) L).cap_lg2 = bq_msb L
    ∧ (bq_make (some buf) L).data = some buf := by
  obtain ⟨hle, hlt⟩ := bq_msb_spec L h1 h2
  have hmsb63 : bq_msb L ≤ 63 := by
    by_contra hcon
    push_neg at hcon
    have : 2 ^ 64 ≤ 2 ^ bq_msb L := Nat.pow_le_pow_right (by norm_num) (by omega)
    omega
  have hmk : bq_make (some buf) L = ⟨0, 0, (1 <<< bq_msb L) - 1, bq_msb L, some buf⟩ := by
    rw [bq_make, if_neg]
    rintro (hA | hB)
    · exact Option.noConfusion hA
    · omega
  rw [hmk]
  have hshift : (1 <<< bq_msb L) = 2 ^ bq_msb L := by
    rw [Nat.shiftLeft_eq, Nat.one_mul]
  have hmz : 0 < 2 ^ bq_msb L := pow_pos (by norm_num) _
  refine ⟨⟨hmsb63, ?_, ?_, ?_, ?_⟩, rfl, rfl, ?_, rfl, rfl⟩
  · show (1 <<< bq_msb L) - 1 = 2 ^ bq_msb L - 1
    rw [hshift]
  · show (0 : Nat) < M
    rw [Mval]
    omega
  · show (0 : Nat) < M
    rw [Mval]
    omega
  · show sub64 0 0 ≤ 2 ^ bq_msb L
    rw [sub64_zero 0 (by rw [Mval]; omega)]
    exact Nat.zero_le _
  · show (1 <<< bq_msb L) - 1 + 1 = 2 ^ bq_msb L
    rw [hshift]
    omega

/-- A freshly constructed queue with its real storage satisfies the trace
invariant with empty ghost state. -/
lemma TraceInv_start (buf : List Nat) (L : Nat) (h1 : 1 ≤ L) (h2 : L < 2 ^ 64)
    (hbl : L ≤ buf.length) : TraceInv (bq_make (some buf) L, [], []) := by
  obtain ⟨hInv, hh, ht, hm1, hlg, hdat⟩ := bq_make_Inv buf L h1 h2
  obtain ⟨hle, hlt⟩ := bq_msb_spec L h1 h2
  have hz : sub64 (bq_make (some buf) L).tail (bq_make (some buf) L).head = 0 := by
    rw [hh, ht, sub64_zero 0 (by rw [Mval]; omega)]
  refine ⟨hInv, ?_, ?_, ?_, ?_, ?_⟩
  · rw [hdat]
    simp
  · rw [hdat, hlg]
    simp only [Option.getD_some]
    omega
  · show ([] : List Nat).length = ([] : List Nat).length
      + sub64 (bq_make (some buf) L).tail (bq_make (some buf) L).head
    rw [hz]
    rfl
  · simp
  · intro i hi
    rw [hz] at hi
    omega

/-- A queue over real storage with equal cursors, power-of-two mask and any
`head < 2 ^ 64` satisfies the trace invariant with empty ghost state. -/
lemma TraceInv_start_any (lg head : Nat) (dat : List Nat) (hlg : lg ≤ 63) (hh : head < M)
    (hdl : 2 ^ lg ≤ dat.length) :
    TraceInv (⟨head, head, 2 ^ lg - 1, lg, some dat⟩, [], []) := by
  have hz : sub64 head head = 0 := (sub64_eq_zero_iff head head hh hh).2 rfl
  refine ⟨⟨hlg, rfl, hh, hh, ?_⟩, ?_, ?_, ?_, ?_, ?_⟩
  · show sub64 head head ≤ 2 ^ lg
    rw [hz]
    exact Nat.zero_le _
  · show (some dat : Option (List Nat)) ≠ none
    simp
  · show 2 ^ lg ≤ ((some dat : Option (List Nat)).getD []).length
    simpa using hdl
  · show ([] : List Nat).length = ([] : List Nat).length + sub64 head head
    rw [hz]
    rfl
  · simp
  · show ∀ i, i < sub64 head head → dat.getD ((head + i) % 2 ^ lg) 0
      = ([] : List Nat).getD (([] : List Nat).length + i) 0
    intro i hi
    rw [hz] at hi
    omega

/-- C1: on every well-formed `bq` state (capacity `2 ^ cap_lg2 ≥ 1`,
`mask = capacity - 1`, fill level in `[0, capacity]`), the length stored in
`*len` by `bq_pushbuf` is the minimum of the remaining free space
`capacity - (tail - head)` and the contiguous distance to the physical end
of storage `capacity - (tail & mask)`; in particular, on a capacity-4
buffer after committing a 3-byte write and then a 2-byte read, `bq_pushbuf`
reports exactly 1 byte available. -/
theorem pushbuf_len_min :
    (∀ q : bq, Inv q →
      (bq_pushbuf q).2.2
        = min (2 ^ q.cap_lg2 - sub64 q.tail q.head)
            (2 ^ q.cap_lg2 - (q.tail &&& q.mask)))
    ∧ (bq_pushbuf (bq_pop (bq_push (bq_make (some [0, 0, 0, 0]) 4) 3) 2)).2.2 = 1 := by
  constructor
  · intro q h
    obtain ⟨hlg, hmask, hh, ht, hfill⟩ := h
    rw [hmask, Nat.and_pow_two_sub_one_eq_mod]
    exact (pushbuf_master q ⟨hlg, hmask, hh, ht, hfill⟩).2
  · decide

theorem pushbuf_len_min_witness :
    Inv ⟨2, 3, 3, 2, some [9, 9, 9, 9]⟩
    ∧ (bq_pushbuf ⟨2, 3, 3, 2, some [9, 9, 9, 9]⟩).2.2
        = min (2 ^ 2 - sub64 3 2) (2 ^ 2 - (3 &&& 3)) :=
  ⟨by decide, pushbuf_len_min.1 ⟨2, 3, 3, 2, some [9, 9, 9, 9]⟩ (by decide)⟩

/-- C2: on every well-formed `bq` state, the length stored in `*len` by
`bq_popbuf` equals `tail - head` when the two cursors are in the same epoch
(`tail >> cap_lg2 = head >> cap_lg2`) and `tail - head - (tail & mask)`
otherwise, and this value always equals the minimum of the available bytes
`tail - head` and the contiguous distance `capacity - (head & mask)`. -/
theorem popbuf_len_epoch :
    ∀ q : bq, Inv q →
      (q.tail >>> q.cap_lg2 = q.head >>> q.cap_lg2 →
          (bq_popbuf q).2.2 = sub64 q.tail q.head)
      ∧ (q.tail >>> q.cap_lg2 ≠ q.head >>> q.cap_lg2 →
          (bq_popbuf q).2.2 = sub64 (sub64 q.tail q.head) (q.tail &&& q.mask))
      ∧ (bq_popbuf q).2.2
          = min (sub64 q.tail q.head) (2 ^ q.cap_lg2 - (q.head &&& q.mask)) := by
  intro q h
  obtain ⟨hptr, hlen, hiff, hres⟩ := popbuf_master q h
  obtain ⟨hlg, hmask, hh, ht, hfill⟩ := h
  have hc : 0 < 2 ^ q.cap_lg2 := pow_pos (by norm_num) _
  have hr : q.head % 2 ^ q.cap_lg2 < 2 ^ q.cap_lg2 := Nat.mod_lt _ hc
  refine ⟨?_, ?_, ?_⟩
  · intro he
    have hrd := hiff.1 he
    rw [hlen, Nat.min_eq_left (by omega)]
  · intro hne
    have hrd : ¬ q.head % 2 ^ q.cap_lg2 + sub64 q.tail q.head < 2 ^ q.cap_lg2 :=
      fun hx => hne (hiff.2 hx)
    have ht2 : q.tail % 2 ^ q.cap_lg2
        = q.head % 2 ^ q.cap_lg2 + sub64 q.tail q.head - 2 ^ q.cap_lg2 := by
      rw [hres, Nat.mod_eq_sub_mod (by omega), Nat.mod_eq_of_lt (by omega)]
    have hs : sub64 (sub64 q.tail q.head)
          (q.head % 2 ^ q.cap_lg2 + sub64 q.tail q.head - 2 ^ q.cap_lg2)
        = sub64 q.tail q.head
          - (q.head % 2 ^ q.cap_lg2 + sub64 q.tail q.head - 2 ^ q.cap_lg2) :=
      sub64_of_le _ _ (by omega) (sub64_lt _ _)
    rw [hlen, hmask, Nat.and_pow_two_sub_one_eq_mod, ht2, hs]
    omega
  · rw [hlen, hmask, Nat.and_pow_two_sub_one_eq_mod]

theorem popbuf_len_epoch_witness :
    Inv ⟨2, 3, 3, 2, some [9, 9, 9, 9]⟩
    ∧ (3 : Nat) >>> 2 = (2 : Nat) >>> 2
    ∧ (bq_popbuf ⟨2, 3, 3, 2, some [9, 9, 9, 9]⟩).2.2 = sub64 3 2
    ∧ (bq_popbuf ⟨2, 3, 3, 2, some [9, 9, 9, 9]⟩).2.2
        = min (sub64 3 2) (2 ^ 2 - (2 &&& 3)) :=
  ⟨by decide, by decide,
    (popbuf_len_epoch ⟨2, 3, 3, 2, some [9, 9, 9, 9]⟩ (by decide)).1 (by decide),
    (popbuf_len_epoch ⟨2, 3, 3, 2, some [9, 9, 9, 9]⟩ (by decide)).2.2⟩

/-- C3: for every sequential interleaving of producer steps
(`bq_pushbuf`, copy, `bq_push`) and consumer steps (`bq_popbuf`, copy,
`bq_pop`) on a freshly constructed queue, in which every committed count is
at most the length returned by the matching buf call, the bytes observed by
the consumer are exactly an initial segment of the bytes committed by the
producer, in order - no byte lost, duplicated or reordered. -/
theorem conservation_in_order :
    ∀ (buf : List Nat) (L : Nat) (ops : List BqOp),
      1 ≤ L → L < 2 ^ 64 → L ≤ buf.length →
      okOps (bq_make (some buf) L, [], []) ops = true →
      ∃ rest, (runOps (bq_make (some buf) L, [], []) ops).2.1
        = (runOps (bq_make (some buf) L, [], []) ops).2.2 ++ rest := by
  intro buf L ops h1 h2 h3 hok
  exact TraceInv_final _ (TraceInv_runOps ops _ (TraceInv_start buf L h1 h2 h3) hok)

theorem conservation_in_order_witness :
    ((1 : Nat) ≤ 4 ∧ (4 : Nat) < 2 ^ 64 ∧ (4 : Nat) ≤ ([0, 0, 0, 0] : List Nat).length
      ∧ okOps (bq_make (some [0, 0, 0, 0]) 4, [], [])
          [.produce [1, 2, 3], .consume 2, .produce [4], .consume 1,
            .produce [5, 6], .consume 1, .consume 2] = true)
    ∧ ∃ rest, (runOps (bq_make (some [0, 0, 0, 0]) 4, [], [])
          [.produce [1, 2, 3], .consume 2, .produce [4], .consume 1,
            .produce [5, 6], .consume 1, .consume 2]).2.1
        = (runOps (bq_make (some [0, 0, 0, 0]) 4, [], [])
            [.produce [1, 2, 3], .consume 2, .produce [4], .consume 1,
              .produce [5, 6], .consume 1, .consume 2]).2.2 ++ rest :=
  ⟨⟨by decide, by decide, by decide, by decide⟩,
    conservation_in_order [0, 0, 0, 0] 4
      [.produce [1, 2, 3], .consume 2, .produce [4], .consume 1,
        .produce [5, 6], .consume 1, .consume 2]
      (by decide) (by decide) (by decide) (by decide)⟩

/-- C4: on every well-formed `bq` state, the length reported by
`bq_pushbuf` never exceeds `capacity - (tail - head)` and the length
reported by `bq_popbuf` never exceeds `tail - head`; committing any count
within the reported length (by `bq_push` or `bq_pop`) preserves the
invariant I1. -/
theorem no_overrun_inv_preserved :
    ∀ q : bq, Inv q →
      (bq_pushbuf q).2.2 ≤ 2 ^ q.cap_lg2 - sub64 q.tail q.head
      ∧ (bq_popbuf q).2.2 ≤ sub64 q.tail q.head
      ∧ (∀ cnt, cnt ≤ (bq_pushbuf q).2.2 → Inv (bq_push q cnt))
      ∧ (∀ cnt, cnt ≤ (bq_popbuf q).2.2 → Inv (bq_pop q cnt)) := by
  intro q h
  refine ⟨?_, ?_, fun cnt hc => (Inv_bq_push q h cnt hc).1,
    fun cnt hc => (Inv_bq_pop q h cnt hc).1⟩
  · rw [(pushbuf_master q h).2]
    exact Nat.min_le_left _ _
  · rw [(popbuf_master q h).2.1]
    exact Nat.min_le_left _ _

theorem no_overrun_inv_preserved_witness :
    Inv ⟨2, 3, 3, 2, some [9, 9, 9, 9]⟩
    ∧ (bq_pushbuf ⟨2, 3, 3, 2, some [9, 9, 9, 9]⟩).2.2 ≤ 2 ^ 2 - sub64 3 2
    ∧ (bq_popbuf ⟨2, 3, 3, 2, some [9, 9, 9, 9]⟩).2.2 ≤ sub64 3 2
    ∧ Inv (bq_push ⟨2, 3, 3, 2, some [9, 9, 9, 9]⟩ 1)
    ∧ Inv (bq_pop ⟨2, 3, 3, 2, some [9, 9, 9, 9]⟩ 1) :=
  ⟨by decide,
    (no_overrun_inv_preserved ⟨2, 3, 3, 2, some [9, 9, 9, 9]⟩ (by decide)).1,
    (no_overrun_inv_preserved ⟨2, 3, 3, 2, some [9, 9, 9, 9]⟩ (by decide)).2.1,
    (no_overrun_inv_preserved ⟨2, 3, 3, 2, some [9, 9, 9, 9]⟩ (by decide)).2.2.1 1 (by decide),
    (no_overrun_inv_preserved ⟨2, 3, 3, 2, some [9, 9, 9, 9]⟩ (by decide)).2.2.2 1 (by decide)⟩

/-- C5 counterexample: on the degenerate queue built from a NULL buffer,
the very first `bq_pushbuf` stores 1 in `*len`, not 0, refuting the claim
that every `bq_pushbuf` on a degenerate queue reports 0. -/
theorem degenerate_pushbuf_len_one :
    (bq_pushbuf (bq_make none 5)).2.2 = 1 ∧ (bq_pushbuf (bq_make none 5)).2.2 ≠ 0 := by
  decide

/-- C5 amended: a `bq` constructed from a NULL storage pointer or a zero
length is the all-zero struct (`mask = 0`, `cap_lg2 = 0`, NULL data), which
behaves as an EMPTY CAPACITY-1 buffer rather than a capacity-0 one:
`bq_popbuf` reports available length 0, but `bq_pushbuf` reports 1. -/
theorem degenerate_make_capacity_one :
    ∀ (buf : Option (List Nat)) (len : Nat), buf = none ∨ len = 0 →
      bq_make buf len = ⟨0, 0, 0, 0, none⟩
      ∧ (bq_popbuf (bq_make buf len)).2.2 = 0
      ∧ (bq_pushbuf (bq_make buf len)).2.2 = 1 := by
  intro buf len h
  have hmk : bq_make buf len = ⟨0, 0, 0, 0, none⟩ := by rw [bq_make, if_pos h]
  rw [hmk]
  exact ⟨rfl, by decide, by decide⟩

theorem degenerate_make_capacity_one_witness :
    (some ([] : List Nat) = none ∨ (0 : Nat) = 0)
    ∧ (bq_make (some ([] : List Nat)) 0 = ⟨0, 0, 0, 0, none⟩
      ∧ (bq_popbuf (bq_make (some ([] : List Nat)) 0)).2.2 = 0
      ∧ (bq_pushbuf (bq_make (some ([] : List Nat)) 0)).2.2 = 1) :=
  ⟨Or.inr rfl, degenerate_make_capacity_one (some []) 0 (Or.inr rfl)⟩

/-- C6 counterexample: for a non-null buffer and length 0 the constructed
capacity `mask + 1 = 2 ^ cap_lg2` is 1, not 0 as the claim states. -/
theorem make_len_zero_capacity_ne_zero :
    (bq_make (some [0]) 0).mask + 1 ≠ 0
    ∧ (bq_make (some [0]) 0).mask + 1 = 1
    ∧ 2 ^ (bq_make (some [0]) 0).cap_lg2 = 1 := by
  decide

/-- C6 amended: for every non-null buffer and `size_t` length `L ≥ 1`,
`bq_make` produces a queue whose capacity `mask + 1 = 2 ^ cap_lg2` is the
largest power of two at most `L`; for `L = 0` the constructed `bq` is the
all-zero struct, whose `mask + 1` is 1 (not 0). -/
theorem make_capacity_largest_pow2 :
    (∀ (buf : List Nat) (L : Nat), 1 ≤ L → L < 2 ^ 64 →
      (bq_make (some buf) L).mask + 1 = 2 ^ (bq_make (some buf) L).cap_lg2
      ∧ 2 ^ (bq_make (some buf) L).cap_lg2 ≤ L
      ∧ L < 2 ^ ((bq_make (some buf) L).cap_lg2 + 1))
    ∧ ∀ buf : List Nat, (bq_make (some buf) 0).mask + 1 = 1 := by
  constructor
  · intro buf L h1 h2
    obtain ⟨hInv, hh, ht, hm1, hlg, hdat⟩ := bq_make_Inv buf L h1 h2
    obtain ⟨hle, hlt⟩ := bq_msb_spec L h1 h2
    refine ⟨hm1, ?_, ?_⟩
    · rw [hlg]
      exact hle
    · rw [hlg]
      exact hlt
  · intro buf
    rw [bq_make, if_pos (Or.inr rfl)]

theorem make_capacity_largest_pow2_witness :
    ((1 : Nat) ≤ 5 ∧ (5 : Nat) < 2 ^ 64)
    ∧ ((bq_make (some [9, 9, 9, 9, 9]) 5).mask + 1
        = 2 ^ (bq_make (some [9, 9, 9, 9, 9]) 5).cap_lg2
      ∧ 2 ^ (bq_make (some [9, 9, 9, 9, 9]) 5).cap_lg2 ≤ 5
      ∧ 5 < 2 ^ ((bq_make (some [9, 9, 9, 9, 9]) 5).cap_lg2 + 1))
    ∧ (bq_make (some [7]) 0).mask + 1 = 1 :=
  ⟨⟨by decide, by decide⟩,
    make_capacity_largest_pow2.1 [9, 9, 9, 9, 9] 5 (by decide) (by decide),
    make_capacity_largest_pow2.2 [7]⟩

/-- C7: immediately after `bq_make` on a non-null buffer of `size_t`
length `L ≥ 1` (so `head = tail = 0`), `bq_popbuf` reports available-read
length 0 and `bq_pushbuf` reports available-write length equal to the full
capacity `mask + 1`. -/
theorem fresh_empty_full :
    ∀ (buf : List Nat) (L : Nat), 1 ≤ L → L < 2 ^ 64 →
      (bq_popbuf (bq_make (some buf) L)).2.2 = 0
      ∧ (bq_pushbuf (bq_make (some buf) L)).2.2 = (bq_make (some buf) L).mask + 1 := by
  intro buf L h1 h2
  obtain ⟨hInv, hh, ht, hm1, hlg, hdat⟩ := bq_make_Inv buf L h1 h2
  have hpop := (popbuf_master _ hInv).2.1
  have hpush := (pushbuf_master _ hInv).2
  have hz : sub64 (bq_make (some buf) L).tail (bq_make (some buf) L).head = 0 := by
    rw [hh, ht, sub64_zero 0 (by rw [Mval]; omega)]
  have hmod : (bq_make (some buf) L).tail % 2 ^ (bq_make (some buf) L).cap_lg2 = 0 := by
    rw [ht]
    exact Nat.zero_mod _
  constructor
  · rw [hpop, hz]
    exact Nat.min_eq_left (Nat.zero_le _)
  · rw [hpush, hz, hmod, Nat.sub_zero, min_self, hm1]

theorem fresh_empty_full_witness :
    ((1 : Nat) ≤ 4 ∧ (4 : Nat) < 2 ^ 64)
    ∧ ((bq_popbuf (bq_make (some [0, 0, 0, 0]) 4)).2.2 = 0
      ∧ (bq_pushbuf (bq_make (some [0, 0, 0, 0]) 4)).2.2
          = (bq_make (some [0, 0, 0, 0]) 4).mask + 1) :=
  ⟨⟨by decide, by decide⟩, fresh_empty_full [0, 0, 0, 0] 4 (by decide) (by decide)⟩

/-- C8: with all cursor arithmetic modulo `2 ^ 64` and a power-of-two
capacity dividing `2 ^ 64`, the operations remain correct when the cursors
start near the maximum `size_t` value, so that commits wrap past 0: from
any equal-cursor start with `2 ^ 64 - capacity ≤ head < 2 ^ 64`, every
contract-respecting sequence of write/commit and read/commit steps crossing
the wraparound point still satisfies the conservation property. -/
theorem wraparound_conservation :
    ∀ (lg head : Nat) (dat : List Nat) (ops : List BqOp),
      lg ≤ 63 → head < M → M - 2 ^ lg ≤ head → 2 ^ lg ≤ dat.length →
      okOps (⟨head, head, 2 ^ lg - 1, lg, some dat⟩, [], []) ops = true →
      ∃ rest, (runOps (⟨head, head, 2 ^ lg - 1, lg, some dat⟩, [], []) ops).2.1
        = (runOps (⟨head, head, 2 ^ lg - 1, lg, some dat⟩, [], []) ops).2.2 ++ rest := by
  intro lg head dat ops hlg hh hwrap hdl hok
  exact TraceInv_final _ (TraceInv_runOps ops _ (TraceInv_start_any lg head dat hlg hh hdl) hok)

theorem wraparound_conservation_witness :
    ((2 : Nat) ≤ 63 ∧ 2 ^ 64 - 2 < M ∧ M - 2 ^ 2 ≤ 2 ^ 64 - 2
      ∧ 2 ^ 2 ≤ ([0, 0, 0, 0] : List Nat).length
      ∧ okOps (⟨2 ^ 64 - 2, 2 ^ 64 - 2, 2 ^ 2 - 1, 2, some [0, 0, 0, 0]⟩, [], [])
          [.produce [10, 20], .consume 1, .produce [30], .consume 1, .consume 1] = true)
    ∧ ∃ rest, (runOps (⟨2 ^ 64 - 2, 2 ^ 64 - 2, 2 ^ 2 - 1, 2, some [0, 0, 0, 0]⟩, [], [])
          [.produce [10, 20], .consume 1, .produce [30], .consume 1, .consume 1]).2.1
        = (runOps (⟨2 ^ 64 - 2, 2 ^ 64 - 2, 2 ^ 2 - 1, 2, some [0, 0, 0, 0]⟩, [], [])
            [.produce [10, 20], .consume 1, .produce [30], .consume 1, .consume 1]).2.2
          ++ rest :=
  ⟨⟨by decide, by decide, by decide, by decide, by decide⟩,
    wraparound_conservation 2 (2 ^ 64 - 2) [0, 0, 0, 0]
      [.produce [10, 20], .consume 1, .produce [30], .consume 1, .consume 1]
      (by decide) (by decide) (by decide) (by decide) (by decide)⟩

/-- C9: `bq_popbuf` and `bq_pushbuf` are pure queries: the queue state
after either call (first component of the embedding's result) is exactly
the queue passed in - no field is mutated; only the out-parameter `*len`
and the returned pointer are produced. -/
theorem popbuf_pushbuf_pure (q : bq) : (bq_popbuf q).1 = q ∧ (bq_pushbuf q).1 = q :=
  ⟨rfl, rfl⟩

/-- C10: on every well-formed `bq` state, `bq_pushbuf` stores 0 in `*len`
exactly when the buffer is full (`tail - head = capacity`), `bq_popbuf`
stores 0 exactly when the buffer is empty (`tail = head`), and when the
buffer is neither full nor empty both queries report a strictly positive
length. -/
theorem len_zero_iff_full_empty :
    ∀ q : bq, Inv q →
      ((bq_pushbuf q).2.2 = 0 ↔ sub64 q.tail q.head = 2 ^ q.cap_lg2)
      ∧ ((bq_popbuf q).2.2 = 0 ↔ q.tail = q.head)
      ∧ (sub64 q.tail q.head ≠ 2 ^ q.cap_lg2 → q.tail ≠ q.head →
          0 < (bq_pushbuf q).2.2 ∧ 0 < (bq_popbuf q).2.2) := by
  intro q h
  have hpush := (pushbuf_master q h).2
  have hpop := (popbuf_master q h).2.1
  obtain ⟨hlg, hmask, hh, ht, hfill⟩ := h
  have hc : 0 < 2 ^ q.cap_lg2 := pow_pos (by norm_num) _
  have hr : q.head % 2 ^ q.cap_lg2 < 2 ^ q.cap_lg2 := Nat.mod_lt _ hc
  have htr : q.tail % 2 ^ q.cap_lg2 < 2 ^ q.cap_lg2 := Nat.mod_lt _ hc
  have hzero := sub64_eq_zero_iff q.tail q.head ht hh
  refine ⟨?_, ?_, ?_⟩
  · rw [hpush]
    omega
  · rw [hpop]
    constructor
    · intro h0
      exact hzero.1 (by omega)
    · intro heq
      have : sub64 q.tail q.head = 0 := hzero.2 heq
      omega
  · intro hne1 hne2
    have hd0 : sub64 q.tail q.head ≠ 0 := fun hx => hne2 (hzero.1 hx)
    constructor
    · rw [hpush]
      omega
    · rw [hpop]
      omega

theorem len_zero_iff_full_empty_witness :
    Inv ⟨2, 3, 3, 2, some [9, 9, 9, 9]⟩
    ∧ sub64 3 2 ≠ 2 ^ 2 ∧ (3 : Nat) ≠ 2
    ∧ 0 < (bq_pushbuf ⟨2, 3, 3, 2, some [9, 9, 9, 9]⟩).2.2
    ∧ 0 < (bq_popbuf ⟨2, 3, 3, 2, some [9, 9, 9, 9]⟩).2.2 :=
  ⟨by decide, by decide, by decide,
    (len_zero_iff_full_empty ⟨2, 3, 3, 2, some [9, 9, 9, 9]⟩ (by decide)).2.2
      (by decide) (by decide)⟩

end BQ
